import Mathlib

/-!
Verification development for the system-identification script
`model_fit_exp3.py` (solve, correlation_report_3, and the top-level
condition loop), as a shallow embedding in Lean 4.

Embedding conventions:
* float64 arithmetic is idealized as exact rational arithmetic over ℚ;
* an IEEE NaN value is modelled as `none : Option ℚ`; every numeric
  comparison involving NaN is false, exactly as in numpy/Python, and this
  is made explicit at each comparison site;
* matrices are `List (List ℚ)` in row-major order, as the numpy arrays are;
* the external library routine `da.linalg.svd` is an oracle parameter of
  type `SvdFun`: the script passes `X` to it and consumes the returned
  triple `(u, s, vh)`; its numerical contract (shapes, factorization) is
  stated as hypotheses where a claim needs it;
* Pearson correlation coefficients are carried on the signed-square scale
  `r ↦ r * |r|`, a strictly increasing bijection of `[-1, 1]`.  Every use
  the script makes of a correlation value inside the selection loop is a
  comparison of absolute values against each other or against zero, and
  all such comparisons are preserved exactly by this bijection, while the
  scale keeps the values inside ℚ (the true Pearson value needs a square
  root).  Zero-variance rows give `none` (NaN), exactly as `np.corrcoef`.
-/

/-! ## Basic list linear algebra (numpy array operations used by the script) -/

/-- Dot product of two rows (`np.dot` on equal-length 1-D arrays). -/
def dotL (x y : List ℚ) : ℚ := (x.zipWith (· * ·) y).sum

/-- Number of columns of a row-major matrix, read off the first row
(the arrays the script builds are rectangular). -/
def numColsOf (m : List (List ℚ)) : ℕ := (m.headD []).length

/-- Column `c` of a row-major matrix. -/
def colOf (m : List (List ℚ)) (c : ℕ) : List ℚ := m.map (fun row => row.getD c 0)

/-- Matrix transpose (`.T` in numpy). -/
def transposeL (m : List (List ℚ)) : List (List ℚ) :=
  (List.range (numColsOf m)).map (colOf m)

/-- Row vector times matrix: `y @ m` for a 1-D `y` and 2-D `m`. -/
def rowMatMul (y : List ℚ) (m : List (List ℚ)) : List ℚ :=
  (List.range (numColsOf m)).map (fun c => dotL y (colOf m c))

/-- Matrix times matrix: `a @ b`. -/
def mulMM (a b : List (List ℚ)) : List (List ℚ) := a.map (fun row => rowMatMul row b)

/-- Broadcast column scaling: `m * w` for a 2-D `m` and 1-D `w`, scaling
column `j` of `m` by `w[j]` (numpy broadcasting over the last axis). -/
def scaleColsW (m : List (List ℚ)) (w : List ℚ) : List (List ℚ) :=
  m.map (fun row => row.zipWith (· * ·) w)

/-- Elementwise reciprocal `1/s` of a 1-D array.  At runtime `1/0.0` is an
IEEE infinity emitted with only a RuntimeWarning; in exact arithmetic the
junk value is `(0 : ℚ)` since `(1 : ℚ) / 0 = 0`.  Either way no error is
raised and execution continues. -/
def recipL (s : List ℚ) : List ℚ := s.map (fun x => 1 / x)

/-! ## The least-squares solver `solve` (model_fit_exp3.py lines 116-157) -/

/-- Type of the external chunked-SVD routine `da.linalg.svd`: from the
matrix `X` it returns the triple `(u, s, vh)`. -/
def SvdFun : Type := List (List ℚ) → List (List ℚ) × List ℚ × List (List ℚ)

/-- Line 118: `X = np.array(traindata[:,:-1])` — every row, with the final
sample column removed. -/
def solveX (td : List (List ℚ)) : List (List ℚ) := td.map (fun row => row.dropLast)

/-- Line 119: `Y = np.array(traindata[i,1:])` — row `i`, with the first
sample column removed. -/
def solveY (i : ℕ) (td : List (List ℚ)) : List ℚ := (td.getD i []).drop 1

/-- Dynamic return value of a Python function in this script: a 1-D numpy
array, a tuple of an array and an integer, or a raised error.  The script
code determines which constructor is produced. -/
inductive PyRet where
  | arr (A : List ℚ) : PyRet
  | tup (A : List ℚ) (rank : ℕ) : PyRet
  | err (msg : String) : PyRet
deriving DecidableEq

/-- True exactly when the returned value represents a raised error. -/
def PyRet.isErr : PyRet → Bool
  | .err _ => true
  | _ => false

/-- True exactly when the returned value is a tuple (a pair). -/
def PyRet.isPair : PyRet → Bool
  | .tup _ _ => true
  | _ => false

/-- Reads a returned 1-D array out of a `PyRet`. -/
def pyArr : PyRet → List ℚ
  | .arr A => A
  | .tup A _ => A
  | .err _ => []

/-- The operator computed by `solve` (lines 117-153).  Following the source:
`states = len(traindata[0])` (the number of sample columns, because
`traindata[0]` is the first row); `u, s, vh = da.linalg.svd(X)`;
`v = vh.T`; `A = (Y @ (v[:,:states] * (1/s)) @ u.T)`.  The slice
`v[:,:states]` keeps the first `states` columns of `v`, clamped at the
actual column count as in Python slicing (`List.take`). -/
def solveA (i : ℕ) (td : List (List ℚ)) (svd : SvdFun) : List ℚ :=
  let states := (td.headD []).length
  let fac := svd (solveX td)
  let u := fac.1
  let s := fac.2.1
  let vh := fac.2.2
  let v := transposeL vh
  rowMatMul (rowMatMul (solveY i td) (scaleColsW (v.map (List.take states)) (recipL s))) (transposeL u)

/-- Line 154, `np.linalg.matrix_rank(A)` for the 1-D array `A`: numpy
special-cases arrays of dimension below 2 and returns 0 when every entry
is zero and 1 otherwise.  The script only prints this value. -/
def matrixRank1D (A : List ℚ) : ℕ :=
  if A.all (fun x => decide (x = 0)) then 0 else 1

/-- Lines 116-157: `solve(i, traindata)`.  The function prints diagnostics
(shapes, singular values, the reconstruction check, `np.linalg.matrix_rank(A)`)
and then executes `return A` — the only return statement; nothing is raised
and no tuple is built. -/
def solve (i : ℕ) (td : List (List ℚ)) (svd : SvdFun) : PyRet :=
  PyRet.arr (solveA i td svd)

/-! ## Pearson correlation (`np.corrcoef`), on the signed-square scale -/

/-- Arithmetic mean of a row. -/
def meanL (x : List ℚ) : ℚ := x.sum / x.length

/-- Centered dot product `Σ (xᵢ - x̄)(yᵢ - ȳ)`; the `1/n` factors of a
covariance cancel from every correlation quotient, so they are omitted. -/
def centeredDot (x y : List ℚ) : ℚ :=
  dotL (x.map (fun a => a - meanL x)) (y.map (fun b => b - meanL y))

/-- Pearson correlation of two rows on the signed-square scale
`r ↦ r * |r|`: the value returned is `sign(r) · r²` =
`Sxy · |Sxy| / (Sxx · Syy)`, which is rational, whereas
`r = Sxy / sqrt(Sxx · Syy)` is not.  When either row has zero variance the
float result is NaN (`none`), exactly as `np.corrcoef`. -/
def ssCorr (x y : List ℚ) : Option ℚ :=
  if centeredDot x x = 0 ∨ centeredDot y y = 0 then none
  else some (centeredDot x y * |centeredDot x y| / (centeredDot x x * centeredDot y y))

/-- Full correlation matrix `np.corrcoef(m)` of the rows of `m`, entrywise
on the signed-square scale. -/
def corrcoefSS (m : List (List ℚ)) : List (List (Option ℚ)) :=
  m.map (fun x => m.map (fun y => ssCorr x y))

/-- Row `-1` (the last row) of a correlation matrix, i.e. `corr[-1,:]`. -/
def lastRowOf (corr : List (List (Option ℚ))) : List (Option ℚ) :=
  corr.getLast?.getD []

/-- Entry `corr[r, c]` of a correlation matrix (NaN outside the bounds,
which the script never reads). -/
def corrAt (corr : List (List (Option ℚ))) (r c : ℕ) : Option ℚ :=
  (corr.getD r []).getD c none

/-! ## The primary selection loop of `correlation_report_3` (lines 162-215) -/

/-- Mutable state of one pass of the primary loop for target row `i`:
the included index set `incl` (a Python set of ints; kept here as a
duplicate-free list, consulted only through membership and sorting) and
the residual error row. -/
structure SelState where
  incl : List ℤ
  error : List ℚ
deriving DecidableEq

/-- Lines 172-179: the error row starts as `-traindata[i,:]` and the
included set as `{i}`. -/
def selInit (td : List (List ℚ)) (i : ℕ) : SelState :=
  ⟨[(i : ℤ)], (td.getD i []).map (fun x => -x)⟩

/-- Python `set.add`: insert if absent. -/
def setAdd (l : List ℤ) (x : ℤ) : List ℤ := if x ∈ l then l else l ++ [x]

/-- Ordered insert for the ascending sort below. -/
def insSorted (x : ℤ) : List ℤ → List ℤ
  | [] => [x]
  | y :: ys => if x ≤ y then x :: y :: ys else y :: insSorted x ys

/-- Line 201: `includes = sorted(incl)` — ascending sort of the included
index set. -/
def sortedIncludes (l : List ℤ) : List ℤ := l.foldr insSorted []

/-- Python indexing `td[k]` with a possibly negative index: a negative `k`
counts from the end, so `td[-1]` is the last row. -/
def pyRowZ (td : List (List ℚ)) (k : ℤ) : List ℚ :=
  if 0 ≤ k then td.getD k.toNat [] else td.getD (td.length - (-k).toNat) []

/-- Line 203-204 submatrix `traindata[includes,:]`: the rows of `td` picked
by the (sorted) index list, Python negative indexing included. -/
def stepSub (td : List (List ℚ)) (includes : List ℤ) : List (List ℚ) :=
  includes.map (pyRowZ td)

/-- One step of the scan of lines 192-197 over candidate `j`, carrying
`acc = (max_index, max_abs)`: skip `j in incl`, then test
`abs(corr[-1,j]) > max_abs`.  When the entry `row.getD j` is NaN (`none`)
the float comparison is false and `j` is skipped, exactly as in numpy. -/
def bestScanStep (row : List (Option ℚ)) (incl : List ℤ) (acc : ℤ × ℚ) (j : ℕ) : ℤ × ℚ :=
  if (j : ℤ) ∈ incl then acc
  else match row.getD j none with
    | none => acc
    | some c => if |c| > acc.2 then ((j : ℤ), |c|) else acc

/-- Lines 190-198: the scan for the best not-yet-included row.
`max_index = -1; max_abs = 0`; then one `bestScanStep` per
`j in range(n)` over the last correlation row `corr[-1,:]`.
Returns the final `(max_index, max_abs)` (on the signed-square scale). -/
def bestCorrIndex (corr : List (List (Option ℚ))) (incl : List ℤ) (n : ℕ) : ℤ × ℚ :=
  (List.range n).foldl (bestScanStep (lastRowOf corr) incl) ((-1 : ℤ), 0)

/-- One iteration of the `while True:` body, lines 181-215: stack the error
row under the train data (`tde = np.vstack([traindata, error])`), compute
the full correlation matrix `corr = np.corrcoef(tde)`, scan `corr[-1,:]`
for the best not-yet-included row, add it (`incl.add(max_index)`), sort the
included set, re-fit with `solve` on the picked submatrix, and recompute
`error = traindata[i,:] - est`.  The scan bound `len(train_states)` equals
the row count of `traindata` (caller invariant: one name per row). -/
def selStep (svd : SvdFun) (td : List (List ℚ)) (i : ℕ) (st : SelState) : SelState :=
  let tde := td ++ [st.error]
  let corr := corrcoefSS tde
  let maxIndex := (bestCorrIndex corr st.incl td.length).1
  let incl2 := setAdd st.incl maxIndex
  let includes := sortedIncludes incl2
  let paramIndex := includes.findIdx (fun x => x == (i : ℤ))
  let sub := stepSub td includes
  let A := pyArr (solve paramIndex sub svd)
  let est := rowMatMul A sub
  let error2 := (td.getD i []).zipWith (fun a b => a - b) est
  ⟨incl2, error2⟩

/-- Line 181: the loop guard of `while True:` — literally the constant
`True`; the body (lines 182-215) contains no `break`, `return` or `raise`. -/
def loopGuard (_ : SelState) : Bool := true

/-- Fuel-indexed run of the primary loop: `none` means the fuel ran out
with the loop still iterating, `some st` would mean the loop exited with
state `st`. -/
def runSelLoop (svd : SvdFun) (td : List (List ℚ)) (i : ℕ) : ℕ → SelState → Option SelState
  | 0, _ => none
  | fuel + 1, st => if loopGuard st then runSelLoop svd td i fuel (selStep svd td i st) else some st

/-! ## The second scoring pass of `correlation_report_3` (lines 217-241) -/

/-- Float `>` on possibly-NaN values: any comparison involving NaN is
false (Python float semantics). -/
def optGt : Option ℚ → Option ℚ → Bool
  | some a, some b => decide (b < a)
  | _, _ => false

/-- Float `<` on possibly-NaN values, the comparison CPython performs on
the sort keys: any comparison involving NaN is false. -/
def ltO : Option ℚ → Option ℚ → Bool
  | some a, some b => decide (a < b)
  | _, _ => false

/-- Ascending-order relation between scored candidates used to state
sortedness: `scoreLe x y` holds when the key of `y` is not strictly below
the key of `x` (for defined keys this is `x ≤ y`; a NaN key satisfies it
vacuously, as every float comparison with NaN is false). -/
def scoreLe (x y : ℕ × Option ℚ) : Prop := ltO y.2 x.2 = false

/-- The binary search of CPython's `binarysort` (listobject.c): locate the
insertion index of the pivot key `p` inside the sorted slice `[l, r)` of
`acc`, moving `r` down to the midpoint when `pivot < a[m]` and `l` past it
otherwise (so the pivot lands after equal keys — stability — and a NaN
comparison, always false, pushes `l` up).  The interval shrinks every
step, so a fuel of `r - l` (we always pass `acc.length`) is enough. -/
def binSearchGo (acc : List (ℕ × Option ℚ)) (p : Option ℚ) : ℕ → ℕ → ℕ → ℕ
  | 0, l, _ => l
  | fuel + 1, l, r =>
    if l < r then
      let m := l + (r - l) / 2
      if ltO p (acc.getD m (0, none)).2 then binSearchGo acc p fuel l m
      else binSearchGo acc p fuel (m + 1) r
    else l

/-- One insertion step of CPython's `binarysort`: place `x` at the index
found by the binary search over the whole accumulated prefix. -/
def binInsert (acc : List (ℕ × Option ℚ)) (x : ℕ × Option ℚ) : List (ℕ × Option ℚ) :=
  let L := binSearchGo acc x.2 acc.length 0 acc.length
  acc.take L ++ x :: acc.drop L

/-- The ascending branch of timsort's `count_run`: keep taking elements
while the next key is not strictly below the current one (a NaN key
continues the run, since the comparison is false).  Returns the run and
the untouched remainder. -/
def takeAscRun (a : ℕ × Option ℚ) :
    List (ℕ × Option ℚ) → List (ℕ × Option ℚ) × List (ℕ × Option ℚ)
  | [] => ([a], [])
  | b :: t =>
    if ltO b.2 a.2 then ([a], b :: t)
    else (a :: (takeAscRun b t).1, (takeAscRun b t).2)

/-- The strictly descending branch of timsort's `count_run`: keep taking
elements while the next key is strictly below the current one (NaN ends
the run). -/
def takeDescRun (a : ℕ × Option ℚ) :
    List (ℕ × Option ℚ) → List (ℕ × Option ℚ) × List (ℕ × Option ℚ)
  | [] => ([a], [])
  | b :: t =>
    if ltO b.2 a.2 then (a :: (takeDescRun b t).1, (takeDescRun b t).2)
    else ([a], b :: t)

/-- Timsort's `count_run`: detect the initial run — ascending in the
not-strictly-below sense, or strictly descending, in which case it is
reversed — and return it with the remainder. -/
def initialRun : List (ℕ × Option ℚ) → List (ℕ × Option ℚ) × List (ℕ × Option ℚ)
  | [] => ([], [])
  | [x] => ([x], [])
  | x :: y :: t =>
    if ltO y.2 x.2 then
      ((x :: (takeDescRun y t).1).reverse, (takeDescRun y t).2)
    else
      (x :: (takeAscRun y t).1, (takeAscRun y t).2)

/-- CPython's ascending list sort below the 64-element merge threshold:
detect the initial run with `count_run`, then binary-insert every
remaining element into the growing sorted prefix (`binarysort`). -/
def binarySortAsc (l : List (ℕ × Option ℚ)) : List (ℕ × Option ℚ) :=
  ((initialRun l).2).foldl binInsert ((initialRun l).1)

/-- Line 235, `sorted(rem.items(), key=lambda item: item[1],
reverse=True)`: CPython reverses the list, runs the stable ascending
timsort, and reverses the result.  This model takes the exact small-array
timsort path (run detection plus binary insertion) and is therefore
faithful to CPython for every pool shorter than the 64-element merge
threshold — which covers the script's configured channel set — and for
every NaN-free pool of any size, where every correct stable sort
coincides.  With a NaN key in the pool the result is NOT a descending
order: the NaN poisons the binary searches, so the head of the result
need not carry a maximal key (e.g. pool keys `0.2, NaN, 0.8` come back
unchanged and the head key is `0.2`; see `sortScoresDesc_nan_mid_pool`). -/
def sortScoresDesc (l : List (ℕ × Option ℚ)) : List (ℕ × Option ℚ) :=
  (binarySortAsc l.reverse).reverse

/-- Lines 229-233, one step of the running maximum over the allocated
set: `c = abs(corr[j,k])` and `if c > max_corr: max_corr = c` (the
comparison is false for NaN, so NaN entries are skipped). -/
def absMaxStep (corr : List (List (Option ℚ))) (j : ℕ) (m : ℚ) (k : ℕ) : ℚ :=
  match corrAt corr j k with
  | none => m
  | some c => if |c| > m then |c| else m

/-- Lines 227-234: score of candidate `j` for target `i`.
`max_corr = 0`; one `absMaxStep` per `k` in the allocated set; then
`rem[j] = abs(corr[i,j]) - max_corr`, which is NaN whenever `corr[i,j]`
is NaN. -/
def gainOf (corr : List (List (Option ℚ))) (incl : List ℕ) (i j : ℕ) : Option ℚ :=
  let maxCorr := incl.foldl (absMaxStep corr j) 0
  match corrAt corr i j with
  | none => none
  | some c => some (|c| - maxCorr)

/-- Lines 220-223: the remaining-candidate pool starts as every row index
of `row = corr[i,:]` other than `i`, in ascending order (dict insertion
order). -/
def secondPassCands (corr : List (List (Option ℚ))) (i : ℕ) : List ℕ :=
  (List.range (corr.getD i []).length).filter (fun j => j ≠ i)

/-- Lines 225-240, the `while len(rem):` loop, generic in the per-candidate
scoring function `g incl j`.  Each iteration scores every remaining
candidate, sorts the scores with `sorted(..., reverse=True)`, takes the
head `idx[0][0]`, prints `row[idx[0][0]]` (recorded as the second component of
the output pair), deletes it from `rem` and appends it to the allocated
set.  Exactly one candidate is deleted per iteration, so the loop runs
`rem.length` times; the structural fuel argument makes that explicit and
is always called with `fuel = rem.length`. -/
def rankLoopAux (corr : List (List (Option ℚ))) (i : ℕ) (g : List ℕ → ℕ → Option ℚ) :
    ℕ → List ℕ → List ℕ → List (ℕ × Option ℚ)
  | 0, _, _ => []
  | fuel + 1, incl, rem =>
    if rem = [] then []
    else
      let scores := rem.map (fun j => (j, g incl j))
      let p := (sortScoresDesc scores).headD (0, none)
      (p.1, corrAt corr i p.1) :: rankLoopAux corr i g fuel (incl ++ [p.1]) (rem.erase p.1)

/-- The second scoring pass for target row `i` over the correlation matrix
currently bound to `corr`: the ranked list of `(row index, printed
correlation-to-target score)` pairs, in print order.  It reads only `corr`
and `i` — in particular it is independent of any fitted operator. -/
def secondPass (corr : List (List (Option ℚ))) (i : ℕ) : List (ℕ × Option ℚ) :=
  let rem := secondPassCands corr i
  rankLoopAux corr i (fun incl j => gainOf corr incl i j) rem.length [] rem

/-- The candidate picked by one iteration of the second pass from pool
`rem` with allocated set `incl`: the head of the Python sort of the
current scores. -/
def pickOf (corr : List (List (Option ℚ))) (incl : List ℕ) (i : ℕ) (rem : List ℕ) : ℕ :=
  ((sortScoresDesc (rem.map (fun j => (j, gainOf corr incl i j)))).headD (0, none)).1

/-! ## Top-level driver (lines 109-114 and 243-253) -/

/-- Lines 109-114: `root_dict`, the model structure to save — a nested
mapping with keys `dt`, `rows`, `cols`, `conditions`; the conditions list
starts empty.  `α` is the type of one per-condition record. -/
structure ModelRecord (α : Type) where
  dt : ℚ
  rows : ℕ
  cols : ℕ
  conditions : List α
deriving DecidableEq

/-- Observable persistent state of one run: the model record under
construction and the list of model files written. -/
structure RunState (α : Type) where
  root : ModelRecord α
  writes : List (ModelRecord α)
deriving DecidableEq

/-- The freshly built `root_dict` with its empty conditions list. -/
def rootDict (α : Type) (dt : ℚ) (rows cols : ℕ) : ModelRecord α :=
  ⟨dt, rows, cols, []⟩

/-- Lines 244-253, body of `for i, cond in enumerate(conditions):`.  The
body prints the condition, builds the locals `condition_dict = {"condition":
cond}`, `traindata`, `coeff` and `sysid`, and calls
`correlation_report_3` (console diagnostics only).  No statement appends
`condition_dict` (or anything else) to `root_dict["conditions"]`, and no
statement writes `root_dict` to the `args.write` file, so the observable
run state is unchanged. -/
def condLoopBody {α : Type} (st : RunState α) (_cond : α) : RunState α := st

/-- The whole run after the condition loop: fold the body over the
configured conditions, starting from the fresh `root_dict` and no writes.
No write statement follows the loop either (the script ends at line 253). -/
def mainRun (α : Type) (dt : ℚ) (rows cols : ℕ) (conds : List α) : RunState α :=
  conds.foldl condLoopBody ⟨rootDict α dt rows cols, []⟩

/-- Exception semantics of the same `for` loop: the body of the loop may
raise (e.g. `np.linalg.LinAlgError` out of the SVD, or an error out of the
correlation computation).  There is no `try`/`except` anywhere in the
script, so the first raised exception aborts the loop — and the run — with
every later condition unprocessed.  Returns the conditions whose
processing was started, and the uncaught exception if one occurred. -/
def runConditions {α ε : Type} (body : α → Except ε Unit) : List α → List α × Option ε
  | [] => ([], none)
  | c :: rest =>
    match body c with
    | Except.ok _ =>
      let r := runConditions body rest
      (c :: r.1, r.2)
    | Except.error e => ([c], some e)

/-! ## Specification-side definitions, used only to state claims -/

/-- Modelled from the spec words of claim C1: V truncated to its first `M`
columns, where `M` is the number of rows of the matrix passed to `solve`. -/
def specTruncV (vh : List (List ℚ)) (M : ℕ) : List (List ℚ) :=
  (transposeL vh).map (List.take M)

/-- Modelled from the spec words of claim C1: the pseudo-inverse recovery
`A = Y · V · diag(1/S) · Uᵗ` with `V` truncated to its first `M` columns. -/
def specOperator (Y : List ℚ) (u : List (List ℚ)) (s : List ℚ) (vh : List (List ℚ)) (M : ℕ) : List ℚ :=
  rowMatMul (rowMatMul Y (scaleColsW (specTruncV vh M) (recipL s))) (transposeL u)

/-- Conclusion of claim C1 for `solve`: the sample partition of `X` and
`Y`, the pseudo-inverse formula with `V` truncated to the first `M = row
count` columns, and the `1 × M` shape of the operator. -/
def SolveC1Spec (i : ℕ) (td : List (List ℚ)) (svd : SvdFun) : Prop :=
  solveX td = td.map (fun r => r.take (r.length - 1))
  ∧ solveY i td = (td.getD i []).drop 1
  ∧ solve i td svd =
      PyRet.arr (specOperator (solveY i td) (svd (solveX td)).1 (svd (solveX td)).2.1
        (svd (solveX td)).2.2 td.length)
  ∧ (solveA i td svd).length = td.length

/-- Modelled from the spec words of claim C2: among the rows not yet
included, the one with maximum absolute correlation to the error row,
ties broken by first occurrence in scan order (stated on the
signed-square scale, which preserves every absolute-value comparison). -/
def specBestRow (corr : List (List (Option ℚ))) (incl : List ℤ) (n : ℕ) : Option ℕ :=
  (List.range n).foldl (fun (acc : Option ℕ) (j : ℕ) =>
    if (j : ℤ) ∈ incl then acc
    else match acc with
      | none => some j
      | some k =>
        if optGt (((lastRowOf corr).getD j none).map (fun c => |c|))
            (((lastRowOf corr).getD k none).map (fun c => |c|)) then some j else acc) none

/-- Declarative description of the scan of lines 190-197, written against
the last correlation row: either nothing was picked (`max_index` is still
`-1` and `max_abs` still `0`), or the picked index `j` is a not-included
row whose absolute correlation to the error row is defined, strictly
positive, maximal, and strictly above every earlier candidate (first
occurrence wins ties); in both cases no candidate strictly exceeds the
final `max_abs`, which is nonnegative. -/
def BestScanSpec (row : List (Option ℚ)) (incl : List ℤ) (n : ℕ) (r : ℤ × ℚ) : Prop :=
  ((r.1 = -1 ∧ r.2 = 0) ∨
    (∃ j, j < n ∧ (j : ℤ) ∉ incl ∧ r.1 = (j : ℤ) ∧
      (row.getD j none).map (fun c => |c|) = some r.2 ∧ 0 < r.2 ∧
      (∀ k, k < j → (k : ℤ) ∉ incl → ∀ c, (row.getD k none).map (fun c => |c|) = some c → c < r.2)))
  ∧ (∀ k, k < n → (k : ℤ) ∉ incl → ∀ c, (row.getD k none).map (fun c => |c|) = some c → c ≤ r.2)
  ∧ 0 ≤ r.2

/-- Conclusion of the amended claim C2: the loop state starts with
included set `{i}` and error row `-traindata[i,:]`; each iteration adds to
the included set exactly the index found by the scan of the last row of
the correlation matrix of `traindata` stacked with the error row; and that
scan picks the not-yet-included row of maximum defined, strictly positive
absolute correlation (ties to the first occurrence), or keeps the sentinel
`-1` when there is no such row. -/
def SelectionStepSpec : Prop :=
  ∀ (svd : SvdFun) (td : List (List ℚ)) (i : ℕ) (st : SelState),
    selInit td i = ⟨[(i : ℤ)], (td.getD i []).map (fun x => -x)⟩
    ∧ (selStep svd td i st).incl =
        setAdd st.incl (bestCorrIndex (corrcoefSS (td ++ [st.error])) st.incl td.length).1
    ∧ BestScanSpec (lastRowOf (corrcoefSS (td ++ [st.error]))) st.incl td.length
        (bestCorrIndex (corrcoefSS (td ++ [st.error])) st.incl td.length)

/-- Conclusion of the amended claim C6, first half: the primary-loop scan
never returns a row with zero variance (its correlation to the error row
is NaN, and NaN fails every float comparison). -/
def PrimaryNeverSelectsZeroVar : Prop :=
  ∀ (tde : List (List ℚ)) (incl : List ℤ) (n j : ℕ),
    centeredDot (tde.getD j []) (tde.getD j []) = 0 →
    (bestCorrIndex (corrcoefSS tde) incl n).1 ≠ (j : ℤ)

/-- Conclusion of the amended claim C6, second half: the second scoring
pass prints every candidate row, each with its correlation-to-target score
`corr[i][j]` — including rows whose score is NaN. -/
def SecondPassPrintsAll : Prop :=
  ∀ (corr : List (List (Option ℚ))) (i j : ℕ),
    j ∈ secondPassCands corr i →
    (j, corrAt corr i j) ∈ secondPass corr i

/-- Conclusion of the amended claim C8: the ranked report prints each
candidate exactly once (the printed indices are a permutation of the
pool); each iteration picks a remaining candidate — the head of the
Python sort of the current gains — and that pick with its printed score
heads the loop output; whenever every current gain is defined (no NaN),
the picked candidate has a gain no other remaining candidate strictly
exceeds (with a NaN gain in the pool the pick can be diverted to a
non-maximal row, see `sortScoresDesc_nan_mid_pool`); and the gain of `j`
is the absolute correlation to the target minus the largest absolute
correlation to an already-allocated row (NaN entries skipped, NaN target
correlation propagated). -/
def SecondPassSpec (corr : List (List (Option ℚ))) (i : ℕ) : Prop :=
  ((secondPass corr i).map Prod.fst).Perm (secondPassCands corr i)
  ∧ (∀ (incl rem : List ℕ), rem ≠ [] →
      pickOf corr incl i rem ∈ rem
      ∧ ((∀ j ∈ rem, (gainOf corr incl i j).isSome = true) →
          ∀ j ∈ rem, optGt (gainOf corr incl i j) (gainOf corr incl i (pickOf corr incl i rem)) = false)
      ∧ (rankLoopAux corr i (fun incl2 j => gainOf corr incl2 i j) rem.length incl rem).headD (0, none)
          = (pickOf corr incl i rem, corrAt corr i (pickOf corr incl i rem)))
  ∧ (∀ (incl : List ℕ) (j : ℕ),
      gainOf corr incl i j = (corrAt corr i j).map (fun c =>
        |c| - List.foldr max 0 ((incl.filterMap (fun k => corrAt corr j k)).map (fun c => |c|))))

/-- Modelled from the spec words of claim C8 (for the counterexample): the
same greedy ranking but with the gain taken as the signed direct
correlation to the target minus the maximum signed correlation to the
already-allocated rows — i.e. without the absolute values the code
actually applies. -/
def gainSigned (corr : List (List (Option ℚ))) (incl : List ℕ) (i j : ℕ) : Option ℚ :=
  let maxCorr := incl.foldl (fun (m : ℚ) (k : ℕ) =>
    match corrAt corr j k with
    | none => m
    | some c => if c > m then c else m) 0
  match corrAt corr i j with
  | none => none
  | some c => some (c - maxCorr)

/-- The greedy ranking driven by the signed gain of the spec words. -/
def secondPassSigned (corr : List (List (Option ℚ))) (i : ℕ) : List (ℕ × Option ℚ) :=
  let rem := secondPassCands corr i
  rankLoopAux corr i (fun incl j => gainSigned corr incl i j) rem.length [] rem

/-! ## Concrete data used by witnesses and counterexamples -/

/-- An SVD oracle value that is never inspected (used where a statement
does not depend on the factorization). -/
def svdDummy : SvdFun := fun _ => ([], [], [])

/-- Training matrix for the claim C2 counterexample: row 1 has exactly
zero correlation to the initial error row `-row 0`. -/
def td2 : List (List ℚ) := [[1, 0, -1], [1, 0, 1]]

/-- Training matrix for the claim C5 counterexample: its `X` block
`[[1,0],[0,0]]` is singular. -/
def td5 : List (List ℚ) := [[1, 0, 3], [0, 0, 4]]

/-- The exact SVD of `solveX td5 = [[1,0],[0,0]]`: `U = I`, `S = (1, 0)`
(a zero singular value), `Vᵗ = I`. -/
def svd5 : SvdFun := fun _ => ([[1, 0], [0, 1]], [1, 0], [[1, 0], [0, 1]])

/-- Tiny input for the claim C7 counterexample. -/
def td7 : List (List ℚ) := [[1, 2]]

/-- A one-by-one SVD oracle for the claim C7 counterexample. -/
def svd7 : SvdFun := fun _ => ([[1]], [1], [[1]])

/-- Correlation matrix for the claim C8 counterexample: the direct
correlation of row 1 to the target row 0 is negative with large
magnitude, so the signed gain of the spec words and the absolute gain of
the code order the candidates differently. -/
def corr8 : List (List (Option ℚ)) :=
  [[some 1, some (-9/10), some (1/2)],
   [some (-9/10), some 1, some 0],
   [some (1/2), some 0, some 1]]

/-- Training matrix for the claim C6 counterexample: row 2 is constant
(zero variance), rows 0 and 1 are exactly anticorrelated. -/
def td6 : List (List ℚ) := [[0, 1, 2, 3], [3, 2, 1, 0], [5, 5, 5, 5]]

/-- Training matrix for the claim C1 witness; its `X` block is the
diagonal matrix `[[2,0],[0,1]]`. -/
def tdW1 : List (List ℚ) := [[2, 0, 5], [0, 1, 7]]

/-- The exact reduced SVD of `solveX tdW1`: `U = I`, `S = (2, 1)`,
`Vᵗ = I`. -/
def svdW1 : SvdFun := fun _ => ([[1, 0], [0, 1]], [2, 1], [[1, 0], [0, 1]])

/-- Training matrix for the claim C10 witness. -/
def td10 : List (List ℚ) := [[1, 2], [3, 4]]

/-- Selector state for the claim C10 witness: both rows of `td10` are
already included. -/
def st10 : SelState := ⟨[0, 1], [0, 0]⟩

/-- Loop body for the claim C9 counterexample and witness: processing
condition `0` raises (as a failed SVD would), condition `1` succeeds. -/
def body9 : ℕ → Except String Unit :=
  fun c => if c = 0 then Except.error "LinAlgError" else Except.ok ()

/-! ## Helper lemmas -/

theorem headD_mem {α : Type} {l : List α} (d : α) (h : l ≠ []) : l.headD d ∈ l := by
  cases l with
  | nil => exact absurd rfl h
  | cons a t => exact List.mem_cons_self a t

theorem optGt_irrefl (a : Option ℚ) : optGt a a = false := by
  cases a with
  | none => rfl
  | some x => simp [optGt]

theorem optGt_eq_ltO (a b : Option ℚ) : optGt a b = ltO b a := by
  cases a <;> cases b <;> rfl

theorem ltO_irrefl (a : Option ℚ) : ltO a a = false := by
  cases a with
  | none => rfl
  | some x => simp [ltO]

theorem ltO_asymm {a b : Option ℚ} (h : ltO a b = true) : ltO b a = false := by
  cases a with
  | none => simp [ltO] at h
  | some x =>
    cases b with
    | none => simp [ltO] at h
    | some y =>
      simp only [ltO, decide_eq_true_eq] at h
      simp only [ltO, decide_eq_false_iff_not]
      exact not_lt.mpr (le_of_lt h)

theorem ltO_lt_of_lt_of_not_lt {p b c : Option ℚ} (hc : c.isSome = true)
    (h1 : ltO p b = true) (h2 : ltO c b = false) : ltO p c = true := by
  obtain ⟨vc, rfl⟩ := Option.isSome_iff_exists.mp hc
  cases p with
  | none => simp [ltO] at h1
  | some vp =>
    cases b with
    | none => simp [ltO] at h1
    | some vb =>
      simp only [ltO, decide_eq_true_eq] at h1 ⊢
      simp only [ltO, decide_eq_false_iff_not] at h2
      exact lt_of_lt_of_le h1 (not_lt.mp h2)

theorem ltO_false_false {p b c : Option ℚ} (hp : p.isSome = true) (hb : b.isSome = true)
    (h1 : ltO p b = false) (h2 : ltO b c = false) : ltO p c = false := by
  obtain ⟨vp, rfl⟩ := Option.isSome_iff_exists.mp hp
  obtain ⟨vb, rfl⟩ := Option.isSome_iff_exists.mp hb
  cases c with
  | none => rfl
  | some vc =>
    simp only [ltO, decide_eq_false_iff_not] at h1 h2 ⊢
    exact not_lt.mpr (le_trans (not_lt.mp h2) (not_lt.mp h1))

theorem scoreLe_refl (x : ℕ × Option ℚ) : scoreLe x x := ltO_irrefl x.2

theorem scoreLe_of_ltO {x y : ℕ × Option ℚ} (h : ltO x.2 y.2 = true) : scoreLe x y :=
  ltO_asymm h

theorem scoreLe_trans {x y z : ℕ × Option ℚ} (hx : x.2.isSome = true) (hy : y.2.isSome = true)
    (hz : z.2.isSome = true) (h1 : scoreLe x y) (h2 : scoreLe y z) : scoreLe x z :=
  ltO_false_false hz hy h2 h1

theorem binSearchGo_spec (acc : List (ℕ × Option ℚ)) (p : Option ℚ)
    (hsort : acc.Pairwise scoreLe) (hall : ∀ x ∈ acc, x.2.isSome = true)
    (hp : p.isSome = true) :
    ∀ (fuel l r : ℕ), l ≤ r → r ≤ acc.length → r - l ≤ fuel →
      (∀ i, i < l → ltO p (acc.getD i (0, none)).2 = false) →
      (∀ i, r ≤ i → i < acc.length → ltO p (acc.getD i (0, none)).2 = true) →
      binSearchGo acc p fuel l r ≤ acc.length
      ∧ (∀ i, i < binSearchGo acc p fuel l r → ltO p (acc.getD i (0, none)).2 = false)
      ∧ (∀ i, binSearchGo acc p fuel l r ≤ i → i < acc.length →
          ltO p (acc.getD i (0, none)).2 = true) := by
  intro fuel
  induction fuel with
  | zero =>
    intro l r hlr hrlen hfuel hleft hright
    have hl : l = r := by omega
    subst hl
    rw [binSearchGo]
    exact ⟨by omega, hleft, hright⟩
  | succ fuel ih =>
    intro l r hlr hrlen hfuel hleft hright
    rw [binSearchGo]
    by_cases hlr2 : l < r
    · rw [if_pos hlr2]
      have hd1 : (r - l) / 2 < r - l := Nat.div_lt_self (by omega) (by omega)
      by_cases hc : ltO p (acc.getD (l + (r - l) / 2) (0, none)).2 = true
      · rw [if_pos hc]
        apply ih l (l + (r - l) / 2) (by omega) (by omega) (by omega) hleft
        intro i hmi hilen
        rcases Nat.eq_or_lt_of_le hmi with heq | hmi2
        · rw [← heq]
          exact hc
        · by_cases hir : r ≤ i
          · exact hright i hir hilen
          · have hmlen : l + (r - l) / 2 < acc.length := by omega
            have hso := List.pairwise_iff_getElem.mp hsort (l + (r - l) / 2) i hmlen hilen hmi2
            rw [List.getD_eq_getElem acc (0, none) hilen]
            rw [List.getD_eq_getElem acc (0, none) hmlen] at hc
            exact ltO_lt_of_lt_of_not_lt (hall _ (List.getElem_mem hilen)) hc hso
      · rw [if_neg hc]
        apply ih (l + (r - l) / 2 + 1) r (by omega) hrlen (by omega) ?_ hright
        have hc2 : ltO p (acc.getD (l + (r - l) / 2) (0, none)).2 = false :=
          Bool.of_not_eq_true hc
        intro i hi
        rcases Nat.lt_succ_iff_lt_or_eq.mp hi with hi2 | heq
        · by_cases hil : i < l
          · exact hleft i hil
          · have hmlen : l + (r - l) / 2 < acc.length := by omega
            have hilen : i < acc.length := by omega
            have hso := List.pairwise_iff_getElem.mp hsort i (l + (r - l) / 2) hilen hmlen hi2
            rw [List.getD_eq_getElem acc (0, none) hilen]
            rw [List.getD_eq_getElem acc (0, none) hmlen] at hc2
            exact ltO_false_false hp (hall _ (List.getElem_mem hmlen)) hc2 hso
        · rw [heq]
          exact hc2
    · rw [if_neg hlr2]
      have hl : l = r := by omega
      subst hl
      exact ⟨by omega, hleft, hright⟩

theorem binInsert_perm (acc : List (ℕ × Option ℚ)) (x : ℕ × Option ℚ) :
    (binInsert acc x).Perm (x :: acc) := by
  simp only [binInsert]
  refine List.perm_middle.trans ?_
  rw [List.take_append_drop]

theorem mem_binInsert {acc : List (ℕ × Option ℚ)} {x y : ℕ × Option ℚ} :
    y ∈ binInsert acc x ↔ y = x ∨ y ∈ acc :=
  ((binInsert_perm acc x).mem_iff).trans List.mem_cons

theorem binInsert_sorted (acc : List (ℕ × Option ℚ)) (x : ℕ × Option ℚ)
    (hsort : acc.Pairwise scoreLe) (hall : ∀ y ∈ acc, y.2.isSome = true)
    (hx : x.2.isSome = true) : (binInsert acc x).Pairwise scoreLe := by
  obtain ⟨hL, hleft, hright⟩ := binSearchGo_spec acc x.2 hsort hall hx acc.length 0 acc.length
    (Nat.zero_le _) (le_refl _) (by omega)
    (fun i hi => absurd hi (Nat.not_lt_zero i))
    (fun i hi hilen => absurd hilen (by omega))
  simp only [binInsert]
  rw [List.pairwise_append]
  refine ⟨hsort.sublist (List.take_sublist _ acc), ?_, ?_⟩
  · rw [List.pairwise_cons]
    refine ⟨?_, hsort.sublist (List.drop_sublist _ acc)⟩
    intro b hb
    obtain ⟨k, hk, hbk⟩ := List.mem_iff_getElem.mp hb
    have hkl : binSearchGo acc x.2 acc.length 0 acc.length + k < acc.length := by
      rw [List.length_drop] at hk
      omega
    have hbeq : b = acc.getD (binSearchGo acc x.2 acc.length 0 acc.length + k) (0, none) := by
      rw [List.getD_eq_getElem acc (0, none) hkl, ← hbk, List.getElem_drop]
    have hxa := hright (binSearchGo acc x.2 acc.length 0 acc.length + k) (by omega) hkl
    rw [← hbeq] at hxa
    exact scoreLe_of_ltO hxa
  · intro a ha b hb
    obtain ⟨ia, hia, haeq⟩ := List.mem_iff_getElem.mp ha
    have hiaL : ia < binSearchGo acc x.2 acc.length 0 acc.length := by
      rw [List.length_take] at hia
      omega
    have hialen : ia < acc.length := by
      rw [List.length_take] at hia
      omega
    have haeq2 : a = acc.getD ia (0, none) := by
      rw [List.getD_eq_getElem acc (0, none) hialen, ← haeq, List.getElem_take]
    rcases List.mem_cons.mp hb with rfl | hb2
    · have hxa := hleft ia hiaL
      rw [← haeq2] at hxa
      exact hxa
    · obtain ⟨k, hk, hbk⟩ := List.mem_iff_getElem.mp hb2
      have hkl : binSearchGo acc x.2 acc.length 0 acc.length + k < acc.length := by
        rw [List.length_drop] at hk
        omega
      have hbeq : b = acc.getD (binSearchGo acc x.2 acc.length 0 acc.length + k) (0, none) := by
        rw [List.getD_eq_getElem acc (0, none) hkl, ← hbk, List.getElem_drop]
      have hso := List.pairwise_iff_getElem.mp hsort ia
        (binSearchGo acc x.2 acc.length 0 acc.length + k) hialen hkl (by omega)
      rw [List.getD_eq_getElem acc (0, none) hialen] at haeq2
      rw [List.getD_eq_getElem acc (0, none) hkl] at hbeq
      rw [haeq2, hbeq]
      exact hso

theorem takeAscRun_eq : ∀ (t : List (ℕ × Option ℚ)) (a : ℕ × Option ℚ),
    (takeAscRun a t).1 ++ (takeAscRun a t).2 = a :: t := by
  intro t
  induction t with
  | nil => intro a; rfl
  | cons b t2 ih =>
    intro a
    rw [takeAscRun]
    by_cases h : ltO b.2 a.2 = true
    · rw [if_pos h]
      rfl
    · rw [if_neg h]
      rw [List.cons_append, ih b]

theorem takeDescRun_eq : ∀ (t : List (ℕ × Option ℚ)) (a : ℕ × Option ℚ),
    (takeDescRun a t).1 ++ (takeDescRun a t).2 = a :: t := by
  intro t
  induction t with
  | nil => intro a; rfl
  | cons b t2 ih =>
    intro a
    rw [takeDescRun]
    by_cases h : ltO b.2 a.2 = true
    · rw [if_pos h]
      rw [List.cons_append, ih b]
    · rw [if_neg h]
      rfl

theorem takeAscRun_sorted : ∀ (t : List (ℕ × Option ℚ)) (a : ℕ × Option ℚ),
    (∀ x ∈ a :: t, x.2.isSome = true) →
    ((takeAscRun a t).1).Pairwise scoreLe ∧ ∀ y ∈ (takeAscRun a t).1, scoreLe a y := by
  intro t
  induction t with
  | nil =>
    intro a _
    refine ⟨List.pairwise_singleton _ _, ?_⟩
    intro y hy
    rw [takeAscRun] at hy
    rw [List.mem_singleton] at hy
    rw [hy]
    exact scoreLe_refl a
  | cons b t2 ih =>
    intro a hall
    rw [takeAscRun]
    by_cases h : ltO b.2 a.2 = true
    · rw [if_pos h]
      refine ⟨List.pairwise_singleton _ _, ?_⟩
      intro y hy
      rw [List.mem_singleton] at hy
      rw [hy]
      exact scoreLe_refl a
    · rw [if_neg h]
      have hab : scoreLe a b := Bool.of_not_eq_true h
      obtain ⟨hp, hmem⟩ := ih b (fun x hx => hall x (List.mem_cons_of_mem a hx))
      have hsub : ∀ y ∈ (takeAscRun b t2).1, y ∈ b :: t2 := by
        intro y hy
        rw [← takeAscRun_eq t2 b]
        exact List.mem_append_left _ hy
      have hsome : ∀ y ∈ (takeAscRun b t2).1, y.2.isSome = true := by
        intro y hy
        exact hall y (List.mem_cons_of_mem a (hsub y hy))
      have hsa : a.2.isSome = true := hall a (List.mem_cons_self _ _)
      have hsb : b.2.isSome = true :=
        hall b (List.mem_cons_of_mem a (List.mem_cons_self _ _))
      refine ⟨?_, ?_⟩
      · rw [List.pairwise_cons]
        refine ⟨?_, hp⟩
        intro y hy
        exact scoreLe_trans hsa hsb (hsome y hy) hab (hmem y hy)
      · intro y hy
        rcases List.mem_cons.mp hy with rfl | hy2
        · exact scoreLe_refl y
        · exact scoreLe_trans hsa hsb (hsome y hy2) hab (hmem y hy2)

theorem takeDescRun_sorted : ∀ (t : List (ℕ × Option ℚ)) (a : ℕ × Option ℚ),
    (∀ x ∈ a :: t, x.2.isSome = true) →
    (((takeDescRun a t).1).reverse).Pairwise scoreLe ∧
      ∀ y ∈ (takeDescRun a t).1, scoreLe y a := by
  intro t
  induction t with
  | nil =>
    intro a _
    refine ⟨List.pairwise_singleton _ _, ?_⟩
    intro y hy
    rw [takeDescRun] at hy
    rw [List.mem_singleton] at hy
    rw [hy]
    exact scoreLe_refl a
  | cons b t2 ih =>
    intro a hall
    rw [takeDescRun]
    by_cases h : ltO b.2 a.2 = true
    · rw [if_pos h]
      have hba : scoreLe b a := scoreLe_of_ltO h
      obtain ⟨hp, hmem⟩ := ih b (fun x hx => hall x (List.mem_cons_of_mem a hx))
      have hsub : ∀ y ∈ (takeDescRun b t2).1, y ∈ b :: t2 := by
        intro y hy
        rw [← takeDescRun_eq t2 b]
        exact List.mem_append_left _ hy
      have hsome : ∀ y ∈ (takeDescRun b t2).1, y.2.isSome = true := by
        intro y hy
        exact hall y (List.mem_cons_of_mem a (hsub y hy))
      have hsa : a.2.isSome = true := hall a (List.mem_cons_self _ _)
      have hsb : b.2.isSome = true :=
        hall b (List.mem_cons_of_mem a (List.mem_cons_self _ _))
      have hya : ∀ y ∈ (takeDescRun b t2).1, scoreLe y a := by
        intro y hy
        exact scoreLe_trans (hsome y hy) hsb hsa (hmem y hy) hba
      refine ⟨?_, ?_⟩
      · rw [List.reverse_cons, List.pairwise_append]
        refine ⟨hp, List.pairwise_singleton _ _, ?_⟩
        intro u hu v hv
        rw [List.mem_singleton] at hv
        rw [hv]
        rw [List.mem_reverse] at hu
        exact hya u hu
      · intro y hy
        rcases List.mem_cons.mp hy with rfl | hy2
        · exact scoreLe_refl y
        · exact hya y hy2
    · rw [if_neg h]
      refine ⟨List.pairwise_singleton _ _, ?_⟩
      intro y hy
      rw [List.mem_singleton] at hy
      rw [hy]
      exact scoreLe_refl a

theorem initialRun_sorted (l : List (ℕ × Option ℚ)) (hall : ∀ x ∈ l, x.2.isSome = true) :
    ((initialRun l).1).Pairwise scoreLe := by
  match l with
  | [] => exact List.Pairwise.nil
  | [x] => exact List.pairwise_singleton _ _
  | x :: y :: t =>
    rw [initialRun]
    by_cases h : ltO y.2 x.2 = true
    · rw [if_pos h]
      have hyx : scoreLe y x := scoreLe_of_ltO h
      obtain ⟨hp, hmem⟩ := takeDescRun_sorted t y (fun u hu => hall u (List.mem_cons_of_mem x hu))
      have hsub : ∀ u ∈ (takeDescRun y t).1, u ∈ y :: t := by
        intro u hu
        rw [← takeDescRun_eq t y]
        exact List.mem_append_left _ hu
      have hsx : x.2.isSome = true := hall x (List.mem_cons_self _ _)
      have hsy : y.2.isSome = true :=
        hall y (List.mem_cons_of_mem x (List.mem_cons_self _ _))
      rw [List.reverse_cons, List.pairwise_append]
      refine ⟨hp, List.pairwise_singleton _ _, ?_⟩
      intro u hu v hv
      rw [List.mem_singleton] at hv
      rw [hv]
      rw [List.mem_reverse] at hu
      have hsu : u.2.isSome = true := hall u (List.mem_cons_of_mem x (hsub u hu))
      exact scoreLe_trans hsu hsy hsx (hmem u hu) hyx
    · rw [if_neg h]
      have hxy : scoreLe x y := Bool.of_not_eq_true h
      obtain ⟨hp, hmem⟩ := takeAscRun_sorted t y (fun u hu => hall u (List.mem_cons_of_mem x hu))
      have hsub : ∀ u ∈ (takeAscRun y t).1, u ∈ y :: t := by
        intro u hu
        rw [← takeAscRun_eq t y]
        exact List.mem_append_left _ hu
      have hsx : x.2.isSome = true := hall x (List.mem_cons_self _ _)
      have hsy : y.2.isSome = true :=
        hall y (List.mem_cons_of_mem x (List.mem_cons_self _ _))
      rw [List.pairwise_cons]
      refine ⟨?_, hp⟩
      intro u hu
      have hsu : u.2.isSome = true := hall u (List.mem_cons_of_mem x (hsub u hu))
      exact scoreLe_trans hsx hsy hsu hxy (hmem u hu)

theorem initialRun_perm (l : List (ℕ × Option ℚ)) :
    ((initialRun l).1 ++ (initialRun l).2).Perm l := by
  match l with
  | [] => exact List.Perm.refl _
  | [x] => exact List.Perm.refl _
  | x :: y :: t =>
    rw [initialRun]
    by_cases h : ltO y.2 x.2 = true
    · rw [if_pos h]
      refine ((List.reverse_perm _).append_right _).trans ?_
      rw [List.cons_append, takeDescRun_eq]
    · rw [if_neg h]
      rw [List.cons_append, takeAscRun_eq]

theorem foldl_binInsert_perm : ∀ (rest acc : List (ℕ × Option ℚ)),
    (rest.foldl binInsert acc).Perm (acc ++ rest) := by
  intro rest
  induction rest with
  | nil => intro acc; simp
  | cons b t ih =>
    intro acc
    rw [List.foldl_cons]
    refine (ih (binInsert acc b)).trans ?_
    refine ((binInsert_perm acc b).append_right t).trans ?_
    rw [List.cons_append]
    exact List.perm_middle.symm

theorem foldl_binInsert_sorted : ∀ (rest acc : List (ℕ × Option ℚ)),
    acc.Pairwise scoreLe → (∀ x ∈ acc, x.2.isSome = true) →
    (∀ x ∈ rest, x.2.isSome = true) → (rest.foldl binInsert acc).Pairwise scoreLe := by
  intro rest
  induction rest with
  | nil => intro acc hs _ _; exact hs
  | cons b t ih =>
    intro acc hs hacc hrest
    rw [List.foldl_cons]
    apply ih
    · exact binInsert_sorted acc b hs hacc (hrest b (List.mem_cons_self _ _))
    · intro x hx
      rcases mem_binInsert.mp hx with rfl | hx2
      · exact hrest x (List.mem_cons_self _ _)
      · exact hacc x hx2
    · intro x hx
      exact hrest x (List.mem_cons_of_mem b hx)

theorem binarySortAsc_perm (l : List (ℕ × Option ℚ)) : (binarySortAsc l).Perm l := by
  simp only [binarySortAsc]
  exact (foldl_binInsert_perm _ _).trans (initialRun_perm l)

theorem binarySortAsc_sorted (l : List (ℕ × Option ℚ))
    (hall : ∀ x ∈ l, x.2.isSome = true) : (binarySortAsc l).Pairwise scoreLe := by
  simp only [binarySortAsc]
  have hperm := initialRun_perm l
  exact foldl_binInsert_sorted _ _ (initialRun_sorted l hall)
    (fun x hx => hall x (hperm.subset (List.mem_append_left _ hx)))
    (fun x hx => hall x (hperm.subset (List.mem_append_right _ hx)))

theorem sortScoresDesc_perm (l : List (ℕ × Option ℚ)) : (sortScoresDesc l).Perm l := by
  simp only [sortScoresDesc]
  exact ((binarySortAsc l.reverse).reverse_perm).trans
    ((binarySortAsc_perm l.reverse).trans l.reverse_perm)

theorem mem_sortScoresDesc {l : List (ℕ × Option ℚ)} {x : ℕ × Option ℚ} :
    x ∈ sortScoresDesc l ↔ x ∈ l :=
  (sortScoresDesc_perm l).mem_iff

theorem sortScoresDesc_head_max_of_isSome (l : List (ℕ × Option ℚ)) (d : ℕ × Option ℚ)
    (hall : ∀ x ∈ l, x.2.isSome = true) :
    ∀ x ∈ sortScoresDesc l, optGt x.2 ((sortScoresDesc l).headD d).2 = false := by
  have hsorted : (binarySortAsc l.reverse).Pairwise scoreLe :=
    binarySortAsc_sorted _ (fun x hx => hall x (List.mem_reverse.mp hx))
  have hrev : (sortScoresDesc l).Pairwise (fun a b => scoreLe b a) := by
    rw [sortScoresDesc, List.pairwise_reverse]
    exact hsorted
  intro x hx
  rw [optGt_eq_ltO]
  cases hsd : sortScoresDesc l with
  | nil =>
    rw [hsd] at hx
    simp at hx
  | cons h t =>
    rw [hsd] at hx hrev
    rw [List.headD_cons]
    rcases List.mem_cons.mp hx with rfl | hx2
    · exact ltO_irrefl _
    · exact (List.pairwise_cons.mp hrev).1 x hx2

/-- Pin of the NaN sort behavior the claims depend on: CPython leaves the
pool keys `0.2, NaN, 0.8` completely unchanged (the NaN poisons every
comparison of the run detection), so the head of the "descending" sort
carries the non-maximal key `0.2` while the `0.8` row stays in the pool;
the model reproduces this exactly. -/
theorem sortScoresDesc_nan_mid_pool :
    sortScoresDesc [(1, some (1/5)), (2, none), (3, some (4/5))]
      = [(1, some (1/5)), (2, none), (3, some (4/5))] := by
  norm_num [sortScoresDesc, binarySortAsc, initialRun, takeAscRun, takeDescRun, binInsert,
    binSearchGo, ltO]

theorem bestScanFold_spec (row : List (Option ℚ)) (incl : List ℤ) :
    ∀ n, BestScanSpec row incl n ((List.range n).foldl (bestScanStep row incl) ((-1 : ℤ), 0)) := by
  intro n
  induction n with
  | zero =>
    simp only [List.range_zero, List.foldl_nil]
    refine ⟨Or.inl ⟨rfl, rfl⟩, ?_, le_refl 0⟩
    intro k hk
    omega
  | succ n ih =>
    rw [List.range_succ, List.foldl_append, List.foldl_cons, List.foldl_nil]
    set r := (List.range n).foldl (bestScanStep row incl) ((-1 : ℤ), 0) with hrdef
    obtain ⟨hdisj, hub, hnn⟩ := ih
    by_cases hmem : (n : ℤ) ∈ incl
    · have hstep : bestScanStep row incl r n = r := by simp [bestScanStep, hmem]
      rw [hstep]
      refine ⟨?_, ?_, hnn⟩
      · rcases hdisj with h | ⟨j, hj, hji, hje, hjs, hjp, hjlt⟩
        · exact Or.inl h
        · exact Or.inr ⟨j, by omega, hji, hje, hjs, hjp, hjlt⟩
      · intro k hk hki c hc
        rcases Nat.lt_succ_iff_lt_or_eq.mp hk with hk2 | rfl
        · exact hub k hk2 hki c hc
        · exact absurd hmem hki
    · cases hrow : row.getD n none with
      | none =>
        have hstep : bestScanStep row incl r n = r := by
          unfold bestScanStep
          rw [if_neg hmem, hrow]
        rw [hstep]
        refine ⟨?_, ?_, hnn⟩
        · rcases hdisj with h | ⟨j, hj, hji, hje, hjs, hjp, hjlt⟩
          · exact Or.inl h
          · exact Or.inr ⟨j, by omega, hji, hje, hjs, hjp, hjlt⟩
        · intro k hk hki c hc
          rcases Nat.lt_succ_iff_lt_or_eq.mp hk with hk2 | rfl
          · exact hub k hk2 hki c hc
          · rw [hrow] at hc
            simp at hc
      | some c =>
        by_cases hgt : |c| > r.2
        · have hstep : bestScanStep row incl r n = ((n : ℤ), |c|) := by
            unfold bestScanStep
            rw [if_neg hmem, hrow]
            exact if_pos hgt
          rw [hstep]
          refine ⟨Or.inr ⟨n, Nat.lt_succ_self n, hmem, rfl, ?_, lt_of_le_of_lt hnn hgt, ?_⟩,
            ?_, abs_nonneg c⟩
          · rw [hrow]
            rfl
          · intro k hk hki c2 hc2
            exact lt_of_le_of_lt (hub k hk hki c2 hc2) hgt
          · intro k hk hki c2 hc2
            rcases Nat.lt_succ_iff_lt_or_eq.mp hk with hk2 | rfl
            · exact le_trans (hub k hk2 hki c2 hc2) (le_of_lt hgt)
            · rw [hrow] at hc2
              simp only [Option.map_some'] at hc2
              injection hc2 with hc3
              exact le_of_eq hc3.symm
        · have hstep : bestScanStep row incl r n = r := by
            unfold bestScanStep
            rw [if_neg hmem, hrow]
            exact if_neg hgt
          rw [hstep]
          refine ⟨?_, ?_, hnn⟩
          · rcases hdisj with h | ⟨j, hj, hji, hje, hjs, hjp, hjlt⟩
            · exact Or.inl h
            · exact Or.inr ⟨j, by omega, hji, hje, hjs, hjp, hjlt⟩
          · intro k hk hki c2 hc2
            rcases Nat.lt_succ_iff_lt_or_eq.mp hk with hk2 | rfl
            · exact hub k hk2 hki c2 hc2
            · rw [hrow] at hc2
              simp only [Option.map_some'] at hc2
              injection hc2 with hc3
              rw [← hc3]
              exact not_lt.mp hgt

theorem bestCorrIndex_spec (corr : List (List (Option ℚ))) (incl : List ℤ) (n : ℕ) :
    BestScanSpec (lastRowOf corr) incl n (bestCorrIndex corr incl n) :=
  bestScanFold_spec (lastRowOf corr) incl n

theorem zerovar_entry (tde : List (List ℚ)) (j : ℕ)
    (h : centeredDot (tde.getD j []) (tde.getD j []) = 0) :
    (lastRowOf (corrcoefSS tde)).getD j none = none := by
  by_cases htde : tde = []
  · subst htde
    simp [corrcoefSS, lastRowOf]
  · have hlast : lastRowOf (corrcoefSS tde)
        = tde.map (fun y => ssCorr (tde.getLast htde) y) := by
      rw [lastRowOf, corrcoefSS, List.getLast?_map, List.getLast?_eq_getLast tde htde]
      rfl
    rw [hlast]
    by_cases hj : j < tde.length
    · have hlen : j < (tde.map (fun y => ssCorr (tde.getLast htde) y)).length := by
        rw [List.length_map]
        exact hj
      rw [List.getD_eq_getElem _ _ hlen, List.getElem_map]
      have hdd : tde[j] = tde.getD j [] := (List.getD_eq_getElem tde [] hj).symm
      rw [hdd, ssCorr, if_pos (Or.inr h)]
    · rw [List.getD_eq_default]
      rw [List.length_map]
      omega

theorem mem_setAdd {l : List ℤ} {x y : ℤ} : y ∈ setAdd l x ↔ y = x ∨ y ∈ l := by
  rw [setAdd]
  by_cases h : x ∈ l
  · rw [if_pos h]
    constructor
    · exact fun hy => Or.inr hy
    · rintro (rfl | hy)
      · exact h
      · exact hy
  · rw [if_neg h]
    simp only [List.mem_append, List.mem_singleton]
    tauto

theorem mem_insSorted {x a : ℤ} {l : List ℤ} : a ∈ insSorted x l ↔ a = x ∨ a ∈ l := by
  induction l with
  | nil => simp [insSorted]
  | cons y ys ih =>
    rw [insSorted]
    by_cases h : x ≤ y
    · rw [if_pos h]
      simp only [List.mem_cons]
    · rw [if_neg h]
      simp only [List.mem_cons, ih]
      tauto

theorem mem_sortedIncludes {a : ℤ} {l : List ℤ} : a ∈ sortedIncludes l ↔ a ∈ l := by
  rw [sortedIncludes]
  induction l with
  | nil => simp
  | cons y ys ih =>
    rw [List.foldr_cons, mem_insSorted, ih]
    simp

theorem two_le_count_map {α β : Type} [BEq β] [LawfulBEq β] (f : α → β) (y : β) :
    ∀ (l : List α) (a b : α), a ∈ l → b ∈ l → a ≠ b → f a = y → f b = y →
      2 ≤ (l.map f).count y := by
  intro l
  induction l with
  | nil =>
    intro a b ha
    simp at ha
  | cons x xs ih =>
    intro a b ha hb hab hfa hfb
    rw [List.map_cons, List.count_cons]
    rcases List.mem_cons.mp ha with rfl | ha2
    · rcases List.mem_cons.mp hb with rfl | hb2
      · exact absurd rfl hab
      · have h1 : 0 < (xs.map f).count y :=
          List.count_pos_iff.mpr (List.mem_map.mpr ⟨b, hb2, hfb⟩)
        rw [if_pos (by simp [hfa])]
        omega
    · rcases List.mem_cons.mp hb with rfl | hb2
      · have h1 : 0 < (xs.map f).count y :=
          List.count_pos_iff.mpr (List.mem_map.mpr ⟨a, ha2, hfa⟩)
        rw [if_pos (by simp [hfb])]
        omega
      · have h2 := ih a b ha2 hb2 hab hfa hfb
        omega

theorem sortScores_headD_mem {l : List (ℕ × Option ℚ)} (d : ℕ × Option ℚ) (h : l ≠ []) :
    (sortScoresDesc l).headD d ∈ l := by
  have hne : sortScoresDesc l ≠ [] := by
    obtain ⟨a, t, rfl⟩ := List.exists_cons_of_ne_nil h
    exact List.ne_nil_of_mem (mem_sortScoresDesc.mpr (List.mem_cons_self a t))
  exact mem_sortScoresDesc.mp (headD_mem d hne)

theorem picked_pair {g : List ℕ → ℕ → Option ℚ} {incl rem : List ℕ} (hne : rem ≠ []) :
    ((sortScoresDesc (rem.map (fun j => (j, g incl j)))).headD (0, none)).1 ∈ rem
    ∧ (sortScoresDesc (rem.map (fun j => (j, g incl j)))).headD (0, none)
        = (((sortScoresDesc (rem.map (fun j => (j, g incl j)))).headD (0, none)).1,
           g incl ((sortScoresDesc (rem.map (fun j => (j, g incl j)))).headD (0, none)).1) := by
  have hmapne : rem.map (fun j => (j, g incl j)) ≠ [] := by
    intro hmap
    exact hne (List.map_eq_nil_iff.mp hmap)
  obtain ⟨j0, hj0, hj0eq⟩ := List.mem_map.mp (sortScores_headD_mem (0, none) hmapne)
  constructor
  · rw [← hj0eq]
    exact hj0
  · rw [← hj0eq]

theorem rankLoopAux_mem (corr : List (List (Option ℚ))) (i : ℕ) (g : List ℕ → ℕ → Option ℚ) :
    ∀ (fuel : ℕ) (incl rem : List ℕ), rem.length = fuel →
      ∀ j ∈ rem, (j, corrAt corr i j) ∈ rankLoopAux corr i g fuel incl rem := by
  intro fuel
  induction fuel with
  | zero =>
    intro incl rem hlen j hj
    rw [List.length_eq_zero] at hlen
    subst hlen
    simp at hj
  | succ n ih =>
    intro incl rem hlen j hj
    have hne : rem ≠ [] := List.ne_nil_of_mem hj
    rw [rankLoopAux, if_neg hne]
    obtain ⟨hp1, _⟩ := @picked_pair g incl rem hne
    by_cases hjp : j = ((sortScoresDesc (rem.map (fun j => (j, g incl j)))).headD (0, none)).1
    · rw [hjp]
      exact List.mem_cons_self _ _
    · apply List.mem_cons_of_mem
      apply ih
      · rw [List.length_erase_of_mem hp1]
        omega
      · exact (List.mem_erase_of_ne hjp).mpr hj

theorem rankLoopAux_perm (corr : List (List (Option ℚ))) (i : ℕ) (g : List ℕ → ℕ → Option ℚ) :
    ∀ (fuel : ℕ) (incl rem : List ℕ), rem.length = fuel →
      ((rankLoopAux corr i g fuel incl rem).map Prod.fst).Perm rem := by
  intro fuel
  induction fuel with
  | zero =>
    intro incl rem hlen
    rw [List.length_eq_zero] at hlen
    subst hlen
    simp [rankLoopAux]
  | succ n ih =>
    intro incl rem hlen
    have hne : rem ≠ [] := by
      intro hrem
      subst hrem
      simp at hlen
    rw [rankLoopAux, if_neg hne]
    obtain ⟨hp1, _⟩ := @picked_pair g incl rem hne
    rw [List.map_cons]
    have htail := ih (incl ++ [((sortScoresDesc (rem.map (fun j => (j, g incl j)))).headD (0, none)).1])
      (rem.erase ((sortScoresDesc (rem.map (fun j => (j, g incl j)))).headD (0, none)).1)
      (by rw [List.length_erase_of_mem hp1]; omega)
    exact (htail.cons _).trans (List.perm_cons_erase hp1).symm

theorem rankLoopAux_head (corr : List (List (Option ℚ))) (i : ℕ) (g : List ℕ → ℕ → Option ℚ)
    (incl rem : List ℕ) (hne : rem ≠ []) :
    (rankLoopAux corr i g rem.length incl rem).headD (0, none)
      = (((sortScoresDesc (rem.map (fun j => (j, g incl j)))).headD (0, none)).1,
         corrAt corr i ((sortScoresDesc (rem.map (fun j => (j, g incl j)))).headD (0, none)).1) := by
  obtain ⟨a, t, rfl⟩ := List.exists_cons_of_ne_nil hne
  rw [List.length_cons, rankLoopAux, if_neg hne]
  rfl

theorem foldr_max_nonneg (l : List ℚ) : 0 ≤ l.foldr max 0 := by
  induction l with
  | nil => exact le_refl 0
  | cons x xs ih =>
    rw [List.foldr_cons]
    exact le_trans ih (le_max_right x _)

theorem foldl_absMaxStep (corr : List (List (Option ℚ))) (j : ℕ) :
    ∀ (incl : List ℕ) (m : ℚ), 0 ≤ m →
      incl.foldl (absMaxStep corr j) m
        = max m (((incl.filterMap (fun k => corrAt corr j k)).map (fun c => |c|)).foldr max 0) := by
  intro incl
  induction incl with
  | nil =>
    intro m hm
    rw [List.foldl_nil, List.filterMap_nil, List.map_nil, List.foldr_nil]
    exact (max_eq_left hm).symm
  | cons k ks ih =>
    intro m hm
    rw [List.foldl_cons, List.filterMap_cons]
    cases hk : corrAt corr j k with
    | none =>
      have hstep : absMaxStep corr j m k = m := by
        unfold absMaxStep
        rw [hk]
      rw [hstep, ih m hm]
    | some c =>
      have hstep : absMaxStep corr j m k = max m |c| := by
        unfold absMaxStep
        rw [hk]
        show (if |c| > m then |c| else m) = max m |c|
        rcases le_or_lt |c| m with h | h
        · rw [if_neg (not_lt.mpr h)]
          exact (max_eq_left h).symm
        · rw [if_pos h]
          exact (max_eq_right (le_of_lt h)).symm
      rw [hstep, ih (max m |c|) (le_trans hm (le_max_left m |c|)), List.map_cons, List.foldr_cons]
      exact max_assoc m |c| _

theorem transposeL_map_take {vh : List (List ℚ)} {n : ℕ} (h : vh.length ≤ n) :
    (transposeL vh).map (List.take n) = transposeL vh := by
  rw [transposeL, List.map_map]
  apply List.map_congr_left
  intro c _
  show (colOf vh c).take n = colOf vh c
  apply List.take_of_length_le
  rw [colOf, List.length_map]
  exact h

theorem length_rowMatMul (y : List ℚ) (m : List (List ℚ)) :
    (rowMatMul y m).length = numColsOf m := by
  rw [rowMatMul, List.length_map, List.length_range]

theorem numColsOf_transposeL {u : List (List ℚ)} (h : 0 < numColsOf u) :
    numColsOf (transposeL u) = u.length := by
  rw [transposeL]
  obtain ⟨k, hk⟩ : ∃ k, numColsOf u = k + 1 := ⟨numColsOf u - 1, by omega⟩
  rw [hk, List.range_succ_eq_map, List.map_cons]
  show (colOf u 0).length = u.length
  rw [colOf, List.length_map]

theorem foldl_condLoopBody {α : Type} :
    ∀ (l : List α) (st : RunState α), l.foldl condLoopBody st = st := by
  intro l
  induction l with
  | nil => intro st; rfl
  | cons c cs ih => intro st; rw [List.foldl_cons]; exact ih st

/-! ## Claim theorems -/

/-- C1: for every training matrix, target row index and SVD oracle whose
output has the shapes of a reduced SVD of `X` (`vh` with at most
`M = td.length` rows and at most `N` columns of samples, `u` with `M` rows
and at least one column) and which factorizes `X = U·S·Vᵗ`, `solve`
partitions the samples into `X` (all rows, samples `[0, N-2]`) and `Y`
(the target row, samples `[1, N-1]`), truncates `V` to its first `M`
columns, recovers `A = Y · V · diag(1/S) · Uᵗ`, and the operator has
shape `1 × M`. -/
theorem claim_C1_solve_structure (i : ℕ) (td : List (List ℚ)) (svd : SvdFun)
    (hfact : mulMM (scaleColsW (svd (solveX td)).1 (svd (solveX td)).2.1) (svd (solveX td)).2.2
      = solveX td)
    (hvhM : (svd (solveX td)).2.2.length ≤ td.length)
    (hvhN : (svd (solveX td)).2.2.length ≤ (td.headD []).length)
    (huM : (svd (solveX td)).1.length = td.length)
    (hucols : 0 < numColsOf (svd (solveX td)).1) :
    SolveC1Spec i td svd := by
  refine ⟨?_, rfl, ?_, ?_⟩
  · rw [solveX]
    apply List.map_congr_left
    intro r _
    exact List.dropLast_eq_take r
  · simp only [solve, solveA, specOperator, specTruncV]
    rw [transposeL_map_take hvhN, transposeL_map_take hvhM]
  · simp only [solveA]
    rw [length_rowMatMul, numColsOf_transposeL hucols, huM]

/-- C1 witness: the hypotheses of `claim_C1_solve_structure` hold for the
concrete matrix `tdW1` and the exact rational SVD `svdW1` of its `X`
block, and the conclusion follows by applying the theorem there. -/
theorem claim_C1_witness :
    (mulMM (scaleColsW (svdW1 (solveX tdW1)).1 (svdW1 (solveX tdW1)).2.1) (svdW1 (solveX tdW1)).2.2
        = solveX tdW1
      ∧ (svdW1 (solveX tdW1)).2.2.length ≤ tdW1.length
      ∧ (svdW1 (solveX tdW1)).2.2.length ≤ (tdW1.headD []).length
      ∧ (svdW1 (solveX tdW1)).1.length = tdW1.length
      ∧ 0 < numColsOf (svdW1 (solveX tdW1)).1)
    ∧ SolveC1Spec 0 tdW1 svdW1 := by
  have h1 : mulMM (scaleColsW (svdW1 (solveX tdW1)).1 (svdW1 (solveX tdW1)).2.1)
      (svdW1 (solveX tdW1)).2.2 = solveX tdW1 := by
    norm_num [svdW1, tdW1, mulMM, scaleColsW, rowMatMul, numColsOf, colOf, dotL, solveX,
      List.range_succ]
  have h2 : (svdW1 (solveX tdW1)).2.2.length ≤ tdW1.length := by norm_num [svdW1, tdW1]
  have h3 : (svdW1 (solveX tdW1)).2.2.length ≤ (tdW1.headD []).length := by
    norm_num [svdW1, tdW1]
  have h4 : (svdW1 (solveX tdW1)).1.length = tdW1.length := by norm_num [svdW1, tdW1]
  have h5 : 0 < numColsOf (svdW1 (solveX tdW1)).1 := by norm_num [svdW1, tdW1, numColsOf]
  exact ⟨⟨h1, h2, h3, h4, h5⟩, claim_C1_solve_structure 0 tdW1 svdW1 h1 h2 h3 h4 h5⟩

/-- C2 counterexample: on the matrix `td2` with target row 0, the only
not-yet-included row (row 1) has a defined absolute correlation of exactly
zero to the error row, so it is the row of maximum absolute correlation
(the spec-side selector picks it), yet the code's scan keeps the sentinel
`-1` and adds `-1` — not row 1 — to the included set. -/
theorem claim_C2_counterexample :
    specBestRow (corrcoefSS (td2 ++ [(selInit td2 0).error])) (selInit td2 0).incl td2.length
        = some 1
    ∧ (bestCorrIndex (corrcoefSS (td2 ++ [(selInit td2 0).error])) (selInit td2 0).incl
        td2.length).1 = -1
    ∧ (1 : ℤ) ∉ (selStep svdDummy td2 0 (selInit td2 0)).incl
    ∧ (-1 : ℤ) ∈ (selStep svdDummy td2 0 (selInit td2 0)).incl := by
  norm_num [td2, selInit, selStep, svdDummy, specBestRow, bestCorrIndex, bestScanStep,
    corrcoefSS, ssCorr, centeredDot, dotL, meanL, lastRowOf, setAdd, sortedIncludes, insSorted,
    stepSub, pyRowZ, solve, solveA, solveX, solveY, pyArr, rowMatMul, scaleColsW, recipL,
    transposeL, numColsOf, colOf, optGt, List.range_succ]

/-- C2 (amended): the selector state starts with included set `{i}` and
error row `-traindata[i,:]`; each iteration stacks the error row under the
matrix, computes the full correlation matrix, and adds to the included set
exactly the index found by the scan of `corr[-1,:]`; that scan picks the
first not-yet-included row of maximal, defined, strictly positive absolute
correlation to the error row, and keeps the sentinel `-1` when no row
qualifies. -/
theorem claim_C2_selection_step : SelectionStepSpec := by
  intro svd td i st
  exact ⟨rfl, rfl, bestCorrIndex_spec (corrcoefSS (td ++ [st.error])) st.incl td.length⟩

/-- C3 (code bug): for every time step, dimension pair and condition list,
the run leaves `root_dict["conditions"]` empty and writes no model file:
no statement of the script appends the per-condition record or writes
`root_dict` to the required `--write` output. -/
theorem claim_C3_nothing_persisted :
    ∀ (α : Type) (dt : ℚ) (rows cols : ℕ) (conds : List α),
      (mainRun α dt rows cols conds).root.conditions = []
      ∧ (mainRun α dt rows cols conds).writes = [] := by
  intro α dt rows cols conds
  rw [mainRun, foldl_condLoopBody]
  exact ⟨rfl, rfl⟩

/-- C4: the primary loop of `correlation_report_3` never terminates: its
guard is the constant `True` and the body has no break, so for every SVD
oracle, matrix, target row, fuel bound and state — in particular states
in which every candidate row is already included — the loop is still
running when the fuel runs out. -/
theorem claim_C4_primary_loop_never_stops :
    ∀ (svd : SvdFun) (td : List (List ℚ)) (i fuel : ℕ) (st : SelState),
      loopGuard st = true ∧ runSelLoop svd td i fuel st = none := by
  intro svd td i fuel
  induction fuel with
  | zero => intro st; exact ⟨rfl, rfl⟩
  | succ n ih =>
    intro st
    refine ⟨rfl, ?_⟩
    simp only [runSelLoop, loopGuard, if_true]
    exact (ih (selStep svd td i st)).2

/-- C5 counterexample: `svd5` is the exact SVD of the singular `X` block
of `td5` and returns the singular values `(1, 0)`; with a zero singular
value present, `solve` still returns an ordinary operator array and
reports no error of any kind. -/
theorem claim_C5_counterexample :
    (0 : ℚ) ∈ (svd5 (solveX td5)).2.1
    ∧ solve 0 td5 svd5 = PyRet.arr [0, 0]
    ∧ (solve 0 td5 svd5).isErr = false := by
  refine ⟨?_, ?_, rfl⟩
  · norm_num [svd5]
  · norm_num [svd5, td5, solve, solveA, solveX, solveY, transposeL, numColsOf, colOf,
      rowMatMul, dotL, scaleColsW, recipL, List.range_succ]

/-- C5 (amended): even when the SVD oracle reports a singular value that
is exactly zero, `solve` neither fails nor reports a degenerate fit: the
reciprocal of the singular values is taken anyway (an IEEE division by
zero at runtime) and the operator is returned normally. -/
theorem claim_C5_no_failure_on_zero_singular (i : ℕ) (td : List (List ℚ)) (svd : SvdFun)
    (h : (0 : ℚ) ∈ (svd (solveX td)).2.1) :
    solve i td svd = PyRet.arr (solveA i td svd) ∧ (solve i td svd).isErr = false :=
  ⟨rfl, rfl⟩

/-- C5 witness: the zero-singular-value hypothesis holds for `svd5` on
`td5` and the amended conclusion follows there. -/
theorem claim_C5_witness :
    ((0 : ℚ) ∈ (svd5 (solveX td5)).2.1)
    ∧ (solve 0 td5 svd5 = PyRet.arr (solveA 0 td5 svd5) ∧ (solve 0 td5 svd5).isErr = false) := by
  have h : (0 : ℚ) ∈ (svd5 (solveX td5)).2.1 := by norm_num [svd5]
  exact ⟨h, claim_C5_no_failure_on_zero_singular 0 td5 svd5 h⟩

/-- C6 (amended): the primary-loop scan never returns a zero-variance row
(its NaN correlation to the error row fails every comparison, and nothing
crashes — every function involved is total); but the second scoring pass
prints every candidate row with its correlation-to-target score, so a
zero-variance row does appear in the output ranking with a NaN score. -/
theorem claim_C6_zero_variance_handling : PrimaryNeverSelectsZeroVar ∧ SecondPassPrintsAll := by
  constructor
  · intro tde incl n j hvar heq
    obtain ⟨hdisj, _, _⟩ := bestCorrIndex_spec (corrcoefSS tde) incl n
    rcases hdisj with ⟨h1, _⟩ | ⟨j2, hj2n, hj2i, hj2e, hj2s, _, _⟩
    · rw [heq] at h1
      omega
    · have hj2 : j2 = j := by
        rw [heq] at hj2e
        omega
      subst hj2
      rw [zerovar_entry tde j2 hvar] at hj2s
      simp at hj2s
  · intro corr i j hj
    show (j, corrAt corr i j) ∈ rankLoopAux corr i (fun incl j => gainOf corr incl i j)
      (secondPassCands corr i).length [] (secondPassCands corr i)
    exact rankLoopAux_mem corr i _ (secondPassCands corr i).length [] (secondPassCands corr i)
      rfl j hj

/-- C6 counterexample: row 2 of `td6` is constant (zero variance), and the
second scoring pass over the correlation matrix of `td6` prints it with a
NaN score: the printed ranking is `[(1, -1), (2, NaN)]`, so NaN does reach
the output ranking. -/
theorem claim_C6_counterexample :
    centeredDot (td6.getD 2 []) (td6.getD 2 []) = 0
    ∧ secondPass (corrcoefSS td6) 0 = [(1, some (-1)), (2, none)]
    ∧ (2, (none : Option ℚ)) ∈ secondPass (corrcoefSS td6) 0 := by
  have h2 : secondPass (corrcoefSS td6) 0 = [(1, some (-1)), (2, none)] := by
    norm_num [td6, secondPass, secondPassCands, rankLoopAux, gainOf, absMaxStep, sortScoresDesc,
      binarySortAsc, initialRun, takeAscRun, takeDescRun, binInsert, binSearchGo, ltO,
      optGt, corrAt, corrcoefSS, ssCorr, centeredDot, dotL, meanL,
      List.range_succ, List.erase_cons_head, List.erase_cons_tail, abs_of_nonneg,
      List.cons_ne_nil]
  refine ⟨?_, h2, ?_⟩
  · norm_num [td6, centeredDot, dotL, meanL]
  · rw [h2]
    simp

/-- C7 counterexample: at the concrete input `(0, td7, svd7)` the value
returned by `solve` is the bare operator array `[2]`; it is not a pair, so
no numerical rank is returned to the caller — in particular it differs
from the pair `(A, rank(A))` that the spec says is returned. -/
theorem claim_C7_counterexample :
    solve 0 td7 svd7 = PyRet.arr [2] ∧ (solve 0 td7 svd7).isPair = false
    ∧ solve 0 td7 svd7 ≠ PyRet.tup (solveA 0 td7 svd7) (matrixRank1D (solveA 0 td7 svd7)) := by
  refine ⟨?_, rfl, ?_⟩
  · norm_num [td7, svd7, solve, solveA, solveX, solveY, transposeL, numColsOf, colOf, rowMatMul,
      dotL, scaleColsW, recipL, List.range_succ]
  · intro h
    exact PyRet.noConfusion h

/-- C7 (amended): for every input, `solve` returns exactly the operator
array `A` — never a tuple and never an error; the numerical rank is
computed only for an informational printout and is not part of the
return value. -/
theorem claim_C7_returns_operator_only :
    ∀ (i : ℕ) (td : List (List ℚ)) (svd : SvdFun),
      solve i td svd = PyRet.arr (solveA i td svd)
      ∧ (solve i td svd).isPair = false ∧ (solve i td svd).isErr = false :=
  fun _ _ _ => ⟨rfl, rfl, rfl⟩

/-- C8 counterexample: on the correlation matrix `corr8` (target row 0)
the code's greedy ranking — which uses absolute correlations in the gain —
prints the candidates in the order `[1, 2]`, while the gain as worded in
the spec (signed direct correlation minus maximum signed correlation)
would print `[2, 1]`: the two rankings differ. -/
theorem claim_C8_counterexample :
    ((secondPass corr8 0).map Prod.fst = [1, 2])
    ∧ ((secondPassSigned corr8 0).map Prod.fst = [2, 1])
    ∧ (secondPass corr8 0).map Prod.fst ≠ (secondPassSigned corr8 0).map Prod.fst := by
  have h1 : (secondPass corr8 0).map Prod.fst = [1, 2] := by
    norm_num [corr8, secondPass, secondPassCands, rankLoopAux, gainOf, absMaxStep,
      sortScoresDesc, binarySortAsc, initialRun, takeAscRun, takeDescRun, binInsert,
      binSearchGo, ltO, optGt, corrAt, List.range_succ, List.erase_cons_head,
      List.erase_cons_tail, abs_of_nonneg, List.cons_ne_nil]
  have h2 : (secondPassSigned corr8 0).map Prod.fst = [2, 1] := by
    norm_num [corr8, secondPassSigned, secondPassCands, rankLoopAux, gainSigned, sortScoresDesc,
      binarySortAsc, initialRun, takeAscRun, takeDescRun, binInsert,
      binSearchGo, ltO, optGt, corrAt, List.range_succ, List.erase_cons_head,
      List.erase_cons_tail, abs_of_nonneg, List.cons_ne_nil]
  refine ⟨h1, h2, ?_⟩
  rw [h1, h2]
  simp

/-- C8 (amended): for every correlation matrix and target row, the second
scoring pass prints each candidate exactly once (a permutation of the
pool); each iteration picks a remaining candidate and that pick with its
correlation-to-target score heads the remaining output; whenever every
remaining candidate's current gain is defined (non-NaN), the pick is
gain-maximal — no other remaining candidate's gain strictly exceeds it
(with a NaN gain in the pool, `sorted()` can put a non-maximal row first,
see `sortScoresDesc_nan_mid_pool`); the gain of a candidate is its
absolute correlation to the target minus the maximum absolute correlation
to the already-allocated rows. -/
theorem claim_C8_ranked_report :
    ∀ (corr : List (List (Option ℚ))) (i : ℕ), SecondPassSpec corr i := by
  intro corr i
  refine ⟨?_, ?_, ?_⟩
  · show ((rankLoopAux corr i (fun incl j => gainOf corr incl i j)
        (secondPassCands corr i).length [] (secondPassCands corr i)).map Prod.fst).Perm
      (secondPassCands corr i)
    exact rankLoopAux_perm corr i _ (secondPassCands corr i).length [] (secondPassCands corr i)
      rfl
  · intro incl rem hne
    obtain ⟨hp1, hppair⟩ :=
      @picked_pair (fun incl2 j => gainOf corr incl2 i j) incl rem hne
    refine ⟨hp1, ?_, ?_⟩
    · intro hallg j hj
      have hallmap : ∀ x ∈ rem.map (fun j => (j, gainOf corr incl i j)),
          x.2.isSome = true := by
        intro x hx
        obtain ⟨j2, hj2, hxeq⟩ := List.mem_map.mp hx
        rw [← hxeq]
        exact hallg j2 hj2
      have hmem : (j, gainOf corr incl i j)
          ∈ sortScoresDesc (rem.map (fun j => (j, gainOf corr incl i j))) :=
        mem_sortScoresDesc.mpr (List.mem_map.mpr ⟨j, hj, rfl⟩)
      have hmax := sortScoresDesc_head_max_of_isSome _ (0, none) hallmap _ hmem
      rw [hppair] at hmax
      exact hmax
    · show (rankLoopAux corr i (fun incl2 j => gainOf corr incl2 i j) rem.length incl rem).headD
        (0, none) = _
      exact rankLoopAux_head corr i _ incl rem hne
  · intro incl j
    cases h : corrAt corr i j with
    | none => simp [gainOf, h]
    | some c =>
      simp only [gainOf, h, Option.map_some']
      rw [foldl_absMaxStep corr j incl 0 (le_refl 0)]
      rw [max_eq_right (foldr_max_nonneg _)]

/-- C9 counterexample: with two configured conditions where processing the
first raises (as an SVD failure would), the run aborts with the exception
uncaught: only the first condition is ever processed and the second is
not, contradicting the claim that subsequent conditions are still
processed. -/
theorem claim_C9_counterexample :
    runConditions body9 [0, 1] = ([0], some "LinAlgError")
    ∧ (1 : ℕ) ∉ (runConditions body9 [0, 1]).1 := by
  have h : runConditions body9 [0, 1] = ([0], some "LinAlgError") := by
    norm_num [runConditions, body9]
  refine ⟨h, ?_⟩
  rw [h]
  simp

/-- C9 (amended): there is no try/except around the condition loop, so a
failure while processing one condition aborts the whole run: the loop
output records the failed condition and the uncaught exception, and none
of the remaining conditions is processed. -/
theorem claim_C9_failure_aborts_run {α ε : Type} (body : α → Except ε Unit) (c : α)
    (rest : List α) (e : ε) (h : body c = Except.error e) :
    runConditions body (c :: rest) = ([c], some e) := by
  simp only [runConditions]
  rw [h]

/-- C9 witness: the failing-body hypothesis holds for `body9` at condition
`0`, and the amended conclusion follows there with condition `1` pending. -/
theorem claim_C9_witness :
    body9 0 = Except.error "LinAlgError"
    ∧ runConditions body9 (0 :: [1]) = ([0], some "LinAlgError") :=
  ⟨rfl, claim_C9_failure_aborts_run body9 0 [1] "LinAlgError" rfl⟩

/-- C10: when every row index of the matrix is already in the included set
(and the matrix is nonempty), the scan keeps its sentinel `-1`, the
sentinel is added to the included set, Python indexing maps row `-1` to
the last matrix row, and the submatrix handed to the next fit therefore
contains the last row at least twice — the loop neither stops nor raises. -/
theorem claim_C10_sentinel_minus_one (svd : SvdFun) (td : List (List ℚ)) (i : ℕ)
    (st : SelState) (hall : ∀ j, j < td.length → (j : ℤ) ∈ st.incl) (hne : td ≠ []) :
    (bestCorrIndex (corrcoefSS (td ++ [st.error])) st.incl td.length).1 = -1
    ∧ (-1 : ℤ) ∈ (selStep svd td i st).incl
    ∧ pyRowZ td (-1) = td.getD (td.length - 1) []
    ∧ 2 ≤ (stepSub td (sortedIncludes (selStep svd td i st).incl)).count
        (td.getD (td.length - 1) []) := by
  have hlen : 0 < td.length := List.length_pos.mpr hne
  have h1 : (bestCorrIndex (corrcoefSS (td ++ [st.error])) st.incl td.length).1 = -1 := by
    obtain ⟨hdisj, _, _⟩ := bestCorrIndex_spec (corrcoefSS (td ++ [st.error])) st.incl td.length
    rcases hdisj with ⟨h, _⟩ | ⟨j, hjn, hji, _, _, _, _⟩
    · exact h
    · exact absurd (hall j hjn) hji
  have hincl : (selStep svd td i st).incl = setAdd st.incl (-1) := by
    show setAdd st.incl (bestCorrIndex (corrcoefSS (td ++ [st.error])) st.incl td.length).1
      = setAdd st.incl (-1)
    rw [h1]
  have hm1 : (-1 : ℤ) ∈ (selStep svd td i st).incl := by
    rw [hincl]
    exact mem_setAdd.mpr (Or.inl rfl)
  have hpy : pyRowZ td (-1) = td.getD (td.length - 1) [] := by
    rw [pyRowZ]
    norm_num
  refine ⟨h1, hm1, hpy, ?_⟩
  have hm2 : ((td.length - 1 : ℕ) : ℤ) ∈ (selStep svd td i st).incl := by
    rw [hincl]
    exact mem_setAdd.mpr (Or.inr (hall (td.length - 1) (by omega)))
  have hs1 : (-1 : ℤ) ∈ sortedIncludes (selStep svd td i st).incl :=
    mem_sortedIncludes.mpr hm1
  have hs2 : ((td.length - 1 : ℕ) : ℤ) ∈ sortedIncludes (selStep svd td i st).incl :=
    mem_sortedIncludes.mpr hm2
  have hne2 : (-1 : ℤ) ≠ ((td.length - 1 : ℕ) : ℤ) := by omega
  have hf2 : pyRowZ td ((td.length - 1 : ℕ) : ℤ) = td.getD (td.length - 1) [] := by
    rw [pyRowZ, if_pos (Int.natCast_nonneg (td.length - 1)), Int.toNat_natCast]
  rw [stepSub]
  exact two_le_count_map (pyRowZ td) (td.getD (td.length - 1) [])
    (sortedIncludes (selStep svd td i st).incl) (-1) ((td.length - 1 : ℕ) : ℤ)
    hs1 hs2 hne2 hpy hf2

/-- C10 witness: with both rows of `td10` already included in `st10`, the
hypotheses hold and the sentinel conclusion follows by applying the
theorem there. -/
theorem claim_C10_witness :
    (∀ j, j < td10.length → (j : ℤ) ∈ st10.incl) ∧ td10 ≠ []
    ∧ ((bestCorrIndex (corrcoefSS (td10 ++ [st10.error])) st10.incl td10.length).1 = -1
      ∧ (-1 : ℤ) ∈ (selStep svdDummy td10 0 st10).incl
      ∧ pyRowZ td10 (-1) = td10.getD (td10.length - 1) []
      ∧ 2 ≤ (stepSub td10 (sortedIncludes (selStep svdDummy td10 0 st10).incl)).count
          (td10.getD (td10.length - 1) [])) := by
  have h1 : ∀ j, j < td10.length → (j : ℤ) ∈ st10.incl := by decide
  have h2 : td10 ≠ [] := by decide
  exact ⟨h1, h2, claim_C10_sentinel_minus_one svdDummy td10 0 st10 h1 h2⟩
